import Mathlib

/-!
Verification of the Sistema-de-Trading core against its specification.

The Python sources are embedded shallowly over `ℚ` (IEEE doubles are modelled
as exact rationals; every numeric literal of the source, such as the `1e-8`
normalisation guards, is carried over as an exact rational).  Pandas series
and numpy vectors become `List ℚ`; dataframe rows become `List (List ℚ)`;
Python dicts become insertion-ordered association lists.  Each definition's
doc comment names the source function and lines it embeds.  External
collaborators (the cvxpy solver, the numpy random generator, the XGBoost
model) enter the embedding as explicit oracle arguments, as noted in place.
-/

namespace Trading

/-! ## Shared metric primitives (`trading_system/risk_management.py`,
`trading_system/utils/metrics.py`) -/

/-- Embeds `np.quantile(l, p)` with numpy's default linear interpolation:
sort the data, let `h = p*(m-1)`, and interpolate between the entries at
positions `⌊h⌋` and `⌊h⌋+1` of the sorted data. -/
def npQuantile (l : List ℚ) (p : ℚ) : ℚ :=
  let s := l.insertionSort (· ≤ ·)
  let h := p * ((l.length : ℚ) - 1)
  let i := (⌊h⌋).toNat
  let a := s.getD i 0
  let b := s.getD (i + 1) a
  a + (h - (i : ℚ)) * (b - a)

/-- Embeds `expected_shortfall(series, q)` of `risk_management.py` lines 12-18
(an identical copy lives in `utils/metrics.py` lines 44-50): the mean of the
observations at or below the `1-q` quantile, `0` for an empty series.  The
`series.dropna()` of the source is the identity here because the embedded
series are lists of rationals, which have no NaN. -/
def expected_shortfall (l : List ℚ) (q : ℚ) : ℚ :=
  if l = [] then 0
  else
    let cutoff := npQuantile l (1 - q)
    let tl := l.filter (· ≤ cutoff)
    if tl = [] then 0 else tl.sum / (tl.length : ℚ)

/-! ## Validation metrics (`trading_system/utils/metrics.py`) -/

/-- Python `range(a, b)` as a list of naturals (empty when `b ≤ a`). -/
def pyRange (a b : ℕ) : List ℕ := List.range' a (b - a)

/-- Embeds `cpcv_time_series_folds(df, n_splits)` of `utils/metrics.py`
lines 71-83, abstracting the dataframe to its row count `n`: `n_splits`
contiguous test blocks of size `n / n_splits` (the last block absorbing the
remainder up to `n`), each paired with the complementary training indices. -/
def cpcv_time_series_folds (n n_splits : ℕ) : List (List ℕ × List ℕ) :=
  if n_splits = 0 then [(List.range n, List.range n)]
  else
    let fold := n / n_splits
    (List.range n_splits).map fun idx =>
      let start := idx * fold
      let e := if idx < n_splits - 1 then (idx + 1) * fold else n
      (pyRange 0 start ++ pyRange e n, pyRange start e)

/-- Embeds `np.argsort(scores)[::-1][0]`, the index picked as "best" by
`pbo_approx`: an index of a maximal entry of the list (`0` for `[]`).  When
the maximum is attained more than once numpy's unstable quicksort does not
specify which tied index the reversed argsort yields; the embedding fixes
the last occurrence as its deterministic representative. -/
def best_index (l : List ℚ) : ℕ :=
  (List.range l.length).foldl (fun b i => if l.getD b 0 ≤ l.getD i 0 then i else b) 0

/-- Embeds `pbo_approx(scores_is, scores_oos)` of `utils/metrics.py`
lines 86-91: `1` for mismatched lengths or empty input, else `0` when the
best in-sample index equals the best out-of-sample index and `1` otherwise. -/
def pbo_approx (scores_is scores_oos : List ℚ) : ℚ :=
  if scores_is.length ≠ scores_oos.length ∨ scores_is.length = 0 then 1
  else if best_index scores_is = best_index scores_oos then 0 else 1

/-- Embeds the `pbo` field computed by `StrategicAgent.cpcv_validate`
(`strategic_agent.py` line 70): `pbo_approx` applied to the per-fold Sharpe
list twice, `0.0` when there are no folds.  The Sharpe list itself is
produced by the external XGBoost fit/predict cycle, so it enters the
embedding as an arbitrary list of rationals. -/
def cpcv_validate_pbo (sharpe_scores : List ℚ) : ℚ :=
  if sharpe_scores = [] then 0 else pbo_approx sharpe_scores sharpe_scores

/-! ## Backtest orchestrator daily loop (`trading_system/backtester.py`) -/

/-- Embeds pandas `Series.rank(pct=True)` (default average method) at
position `i`: the average 1-based rank of the tied group of `scores[i]`,
divided by the series length. -/
def rank_pct (scores : List ℚ) (i : ℕ) : ℚ :=
  let x := scores.getD i 0
  (((scores.filter (· < x)).length : ℚ)
    + (((scores.filter (· = x)).length : ℚ) + 1) / 2) / (scores.length : ℚ)

/-- Embeds the `day_weights` closure of `Backtester.run`
(`backtester.py` lines 62-64): percentile ranks mapped to `[-1, 1]` and
divided by their absolute sum plus `1e-8`. -/
def day_weights (scores : List ℚ) : List ℚ :=
  let ranks := (List.range scores.length).map (fun i => rank_pct scores i * 2 - 1)
  ranks.map (· / ((ranks.map (fun x => |x|)).sum + 1 / 100000000))

/-- Embeds the portfolio-return computation of one iteration of the daily
loop of `Backtester.run` (`backtester.py` lines 79-97): blend the rank-based
weights of the current row's scores with the Kelly weights, renormalise by
the absolute sum plus `1e-8`, clip to `±max_position_pct`
(`RISK_LIMITS["max_position_pct"] = 0.08`), and take the dot product with
the current row's realized returns.  `kelly_w` is the output of
`bayesian_kelly` for the rolling window, which does not depend on the
current row's scores. -/
def day_return (max_position_pct : ℚ) (scores kelly_w rets : List ℚ) : ℚ :=
  let base_w := day_weights scores
  let combined0 := List.zipWith (fun b k => (1 / 2) * b + (1 / 2) * k) base_w kelly_w
  let combined1 := combined0.map (· / ((combined0.map (fun x => |x|)).sum + 1 / 100000000))
  let combined := combined1.map (fun w => max (-max_position_pct) (min w max_position_pct))
  (List.zipWith (· * ·) combined rets).sum

/-- Embeds the Kelly-window row selection of `Backtester.run`
(`backtester.py` lines 83-84) at the row of index `t` of a panel with
`panel_len` rows: `last_window = panel.loc[:dt].tail(60)` — pandas label
slicing is inclusive, so this is the last sixty of rows `0..t` — and
`returns_for_kelly = last_window` when it has at least 20 rows, else
`panel.head(20)`, the first twenty rows of the whole panel. -/
def kelly_window_rows (panel_len t : ℕ) : List ℕ :=
  let last_window := (List.range (t + 1)).drop (t + 1 - 60)
  if 20 ≤ last_window.length then last_window else (List.range panel_len).take 20

/-! ## Order management system (`trading_system/oms.py`) -/

/-- Python-dict lookup on an insertion-ordered association list. -/
def dict_get {α : Type} (ps : List (String × α)) (key : String) : Option α :=
  (ps.find? (fun p => p.1 == key)).map Prod.snd

/-- Python-dict assignment on an insertion-ordered association list: replace
in place when the key is present, append otherwise. -/
def dict_set {α : Type} (ps : List (String × α)) (key : String) (v : α) :
    List (String × α) :=
  if ps.any (fun p => p.1 == key) then
    ps.map (fun p => if p.1 == key then (key, v) else p)
  else ps ++ [(key, v)]

/-- Per-asset position record of `PaperTradingOMS` (`oms.py` lines 87-91):
signed quantity, last fill price, mark value. -/
structure OMSPosition where
  qty : ℚ
  price : ℚ
  value : ℚ
deriving DecidableEq

/-- Mutable state of `PaperTradingOMS` (`oms.py` lines 14-20). -/
structure OMSState where
  cash : ℚ
  positions : List (String × OMSPosition)
  total_value : ℚ
  idempotency_registry : List String
  expected_costs : List (String × ℚ)
  equity_curve : List ℚ
deriving DecidableEq

/-- Result dict of `PaperTradingOMS.send_order` (`oms.py` lines 74 and
95-102): either the duplicate short-circuit or a fill record. -/
inductive OrderResult where
  | ignored_duplicate (client_order_id : String)
  | filled (ticker side : String) (filled_quantity avg_fill_price : ℚ)
      (client_order_id : String)
deriving DecidableEq

/-- Embeds `PaperTradingOMS.idempotency_key` (`oms.py` lines 30-31).  The
source takes the SHA-256 hex digest of the colon-joined triple; the digest
is a deterministic function of that string, and determinism (equal triples
map to equal keys) is the only property the OMS relies on, so the embedding
uses the pre-image string itself as the key. -/
def idempotency_key (account_id ticker client_order_id : String) : String :=
  account_id ++ ":" ++ ticker ++ ":" ++ client_order_id

/-- Embeds `PaperTradingOMS.reference_price` (`oms.py` lines 33-34):
the held position's price, `100.0` when the ticker is not held. -/
def reference_price (positions : List (String × OMSPosition)) (ticker : String) : ℚ :=
  match dict_get positions ticker with
  | some p => p.price
  | none => 100

/-- Embeds `PaperTradingOMS.estimate_cost` (`oms.py` lines 36-49) at the
default arguments used by the `send_order` call site (`spread_bps = 5.0`,
`participation = 0.01`, `vol_cone = 1.0`); `np.sqrt(0.01)` is exactly
`1/10`.  Commission, half-spread, permanent and temporary impact, all
proportional to `|qty| * price`. -/
def estimate_cost (qty price : ℚ) : ℚ :=
  let commission := (5 / 10000) * |qty| * price
  let spread_cost := (1 / 2) * (5 / 10000) * |qty| * price
  let permanent := (1 / 10) * (1 / 100) * |qty| * price
  let temporary := (1 / 100) * 1 * (1 / 10) * |qty| * price
  commission + spread_cost + permanent + temporary

/-- Embeds `PaperTradingOMS.get_portfolio_value` (`oms.py` lines 22-23). -/
def get_portfolio_value (cash : ℚ) (positions : List (String × OMSPosition)) : ℚ :=
  cash + (positions.map (fun p => p.2.value)).sum

/-- Embeds `PaperTradingOMS.send_order` (`oms.py` lines 62-102) with an
explicit client token (when `client_order_id` is `None` the source derives
one from the wall clock, an effect outside the embedding).  Python
truthiness makes a `limit_price` of `0.0` fall back to the reference price,
which the `match` mirrors.  Returns the result dict and the updated state. -/
def send_order (s : OMSState) (account_id ticker side : String) (qty : ℚ)
    (limit_price : Option ℚ) (client_order_id : String) : OrderResult × OMSState :=
  let key := idempotency_key account_id ticker client_order_id
  if key ∈ s.idempotency_registry then (.ignored_duplicate client_order_id, s)
  else
    let registry := key :: s.idempotency_registry
    let price_ref := match limit_price with
      | some p => if p = 0 then reference_price s.positions ticker else p
      | none => reference_price s.positions ticker
    let exp_cost := estimate_cost qty price_ref
    let costs := dict_set s.expected_costs client_order_id exp_cost
    let is_buy := (side.toUpper).startsWith "BUY"
    let fill_price := price_ref * (1 + (if is_buy then 5 / 10000 else -(5 / 10000)))
    let filled_qty := qty
    let sign : ℚ := if is_buy then 1 else -1
    let cash := s.cash - (sign * filled_qty * fill_price + exp_cost)
    let pos0 := match dict_get s.positions ticker with
      | some p => p
      | none => ⟨0, fill_price, 0⟩
    let new_qty := pos0.qty + sign * filled_qty
    let positions := dict_set s.positions ticker ⟨new_qty, fill_price, new_qty * fill_price⟩
    let total_value := get_portfolio_value cash positions
    (.filled ticker side filled_qty fill_price client_order_id,
      ⟨cash, positions, total_value, registry, costs, s.equity_curve ++ [total_value]⟩)

/-! ## Risk monitor (`trading_system/risk_management.py` lines 100-133) -/

/-- Per-asset snapshot entry consumed by the risk monitor: the
`pos.get("price", 1.0)` and `pos.get("value", 0.0)` fields. -/
structure RiskPosition where
  price : ℚ
  value : ℚ
deriving DecidableEq

/-- Portfolio snapshot consumed by `check_risk_limits_with_cooldown`:
insertion-ordered positions dict and the `total_value` field. -/
structure RiskPortfolio where
  positions : List (String × RiskPosition)
  total_value : ℚ

/-- Structured verdict of `check_risk_limits_with_cooldown`; the source
returns a status string plus a reason naming the failed check (and, for the
participation check, the offending ticker), which the constructors carry. -/
inductive RiskVerdict where
  | kill_switch
  | rejected_gross
  | rejected_participation (ticker : String)
  | passed
deriving DecidableEq

/-- Embeds `check_risk_limits_with_cooldown` (`risk_management.py` lines
100-133) at the configured limits of `config.py`
(`drawdown_window_bars = 100`, `kill_switch_sigma = 3`,
`max_gross_exposure_pct = 2.0`, `max_participation_adv = 0.05`): first the
kill switch on the trailing window (at least 10 observations and
`abs(recent.sum())` exceeding `3 × |ES95|`), then the gross-exposure check,
then — only when an ADV accessor is supplied — the per-asset participation
check naming the first offender in dict order, else PASSED. -/
def check_risk_limits_with_cooldown (pf : RiskPortfolio) (pnl_intraday : List ℚ)
    (get_adv : Option (String → ℚ)) : RiskVerdict :=
  let recent := pnl_intraday.drop (pnl_intraday.length - 100)
  if 10 ≤ recent.length ∧ 3 * |expected_shortfall recent (95 / 100)| < |recent.sum| then
    .kill_switch
  else
    let gross := (pf.positions.map (fun p => |p.2.value|)).sum
      / max pf.total_value (1 / 100000000)
    if 2 < gross then .rejected_gross
    else
      match get_adv with
      | none => .passed
      | some adv =>
          match pf.positions.find? (fun p => decide
              ((5 / 100 : ℚ) < |p.2.value| / (max 1 (adv p.1) * max (1 / 1000000) p.2.price))) with
          | some p => .rejected_participation p.1
          | none => .passed

/-- Modelled from the spec: "REJECTED naming the first asset whose
participation (position value divided by ADV×price) exceeds the
participation ceiling" — the first asset in dict order whose participation
exceeds `0.05`, written independently of the source's `find?` encoding so
the code can be compared against it. -/
def first_violating_asset (adv : String → ℚ) :
    List (String × RiskPosition) → Option String
  | [] => none
  | p :: rest =>
      if (5 / 100 : ℚ) < |p.2.value| / (adv p.1 * p.2.price) then some p.1
      else first_violating_asset adv rest

/-! ## Portfolio optimizer
(`sistema_de_trading/optimization/portfolio_optimizer.py`) -/

/-- Embeds `PortfolioOptimizer._fallback_weights` (lines 220-256) with the
configured gross-leverage ceiling `config.apalancamiento_bruto_max` as a
parameter (default `2.0`): clip the forecasts into a long and a short
group, weight each group by its share of the group sum (plus a `1e-8`
guard), subtract, and rescale the whole vector so gross leverage equals the
ceiling; equal weights `1/n` when every forecast is zero. -/
def fallback_weights (apalancamiento_bruto_max : ℚ) (expected_returns : List ℚ) :
    List ℚ :=
  if expected_returns = [] then []
  else
    let pos := expected_returns.map (fun x => max x 0)
    let neg := expected_returns.map (fun x => max (-x) 0)
    let total := pos.sum + neg.sum
    let weights :=
      if total = 0 then expected_returns.map (fun _ => 1 / (expected_returns.length : ℚ))
      else List.zipWith (fun p q => p / (pos.sum + 1 / 100000000) - q / (neg.sum + 1 / 100000000))
        pos neg
    let leverage := (weights.map (fun x => |x|)).sum
    if 0 < leverage then weights.map (· * (apalancamiento_bruto_max / leverage)) else weights

/-- Embeds `PortfolioOptimizer.optimize_weights` (lines 149-215) with the
external cvxpy solve as an oracle input: `solver_status` is
`problem.status` after the ECOS/SCS try ladder (also standing for the
`cvxpy_unavailable` branch) and `raw_w` is `w.value`, `none` when the
solver produced no vector.  An empty universe raises (`ValueError`,
line 152), embedded as `.error`; a non-optimal status or a missing vector
falls back to `_fallback_weights`; otherwise the solver vector is rescaled
to the configured gross-leverage ceiling when its leverage is positive. -/
def optimize_weights (apalancamiento_bruto_max : ℚ) (solver_status : String)
    (raw_w : Option (List ℚ)) (expected_returns : List ℚ) : Except String (List ℚ) :=
  if expected_returns.length = 0 then .error "No hay tickers para optimizar."
  else if solver_status ≠ "optimal" ∧ solver_status ≠ "optimal_inaccurate" then
    .ok (fallback_weights apalancamiento_bruto_max expected_returns)
  else
    match raw_w with
    | none => .ok (fallback_weights apalancamiento_bruto_max expected_returns)
    | some w =>
        let leverage := (w.map (fun x => |x|)).sum
        .ok (if 0 < leverage then w.map (· * (apalancamiento_bruto_max / leverage)) else w)

/-! ## Position sizer (`trading_system/risk_management.py` lines 58-97) -/

/-- Mean of a series (pandas `Series.mean`). -/
def listMean (l : List ℚ) : ℚ := l.sum / (l.length : ℚ)

/-- Sample variance with the pandas default `ddof = 1`
(`DataFrame.cov` of a single column). -/
def sampleVar (l : List ℚ) : ℚ :=
  (l.map (fun x => (x - listMean l) ^ 2)).sum / ((l.length : ℚ) - 1)

/-- Embeds one bootstrap draw's Kelly solve
`np.linalg.solve(cov_b + 1e-8 * np.eye(1), mu_b)` (`risk_management.py`
line 76) for a single-asset panel: the 1×1 system solves to
`mean / (variance + 1e-8)`.  (The `LinAlgError` branch is unreachable for
a regularised 1×1 system.) -/
def kelly_draw_1asset (sample : List ℚ) : ℚ :=
  listMean sample / (sampleVar sample + 1 / 100000000)

/-- Portfolio return series `(returns * weights.values).sum(axis=1)`
(`risk_management.py` line 84): per-date dot product of the return row
with the weight vector. -/
def port_returns (returns : List (List ℚ)) (w : List ℚ) : List ℚ :=
  returns.map (fun row => (List.zipWith (· * ·) row w).sum)

/-- Embeds the expected-shortfall budget rescale of `bayesian_kelly`
(`risk_management.py` lines 84-87) applied to the post-percentile,
fraction-scaled weight vector `w`: when the portfolio's `|ES95|` exceeds
the positive budget, every weight is multiplied by `es_budget / |ES95|`.
With no price/ADV/portfolio-value accessors supplied, `bayesian_kelly`
returns this value unchanged (the participation loop, lines 89-96, is
skipped). -/
def es_rescale (es_budget : ℚ) (returns : List (List ℚ)) (w : List ℚ) : List ℚ :=
  let es95 := expected_shortfall (port_returns returns w) (95 / 100)
  if es_budget < |es95| ∧ 0 < es_budget then w.map (· * (es_budget / |es95|)) else w

/-- Embeds `bayesian_kelly` (`risk_management.py` lines 58-97) at its
default parameters (`confidence = 0.95`, `kelly_fraction = 0.25`,
`es_budget = 0.03`) for a single-asset returns frame with no
price/ADV/portfolio-value accessors, the 500 seeded bootstrap resample
outcomes supplied explicitly as `resamples` (the numpy generator is an
external effect; for the constant panels used below every possible
with-replacement resample equals the panel itself, so the argument is
forced).  Per draw the Kelly solve, then the `(1-confidence)/2 = 2.5`
percentile across draws times the Kelly fraction, then the
expected-shortfall budget rescale. -/
def bayesian_kelly_1asset (returns : List ℚ) (resamples : List (List ℚ)) : ℚ :=
  let ks := resamples.map kelly_draw_1asset
  let lower := npQuantile ks ((1 - 95 / 100) / 2)
  let w := lower * (25 / 100)
  let port := returns.map (· * w)
  let es95 := expected_shortfall port (95 / 100)
  if (3 / 100 : ℚ) < |es95| then w * ((3 / 100) / |es95|) else w

/-!
# Theorems
-/

/-! ## C1 and C6: look-ahead in the daily loop -/

/-- C1: refuted on the code (code bug).  `Backtester.run` line 97 computes the
day's realized return as `(combined.values * row[ret_cols].values).sum()`,
where `combined` is derived from the *same* row's scores (lines 80-95), not
from `prev_weights` (`prev_weights` is only used for turnover, line 102).
Concretely, with two assets, Kelly weights `0` and the day's realized
returns `(1%, 2%)` held fixed, perturbing only the current date's score
column from `(1, 2)` to `(2, 1)` changes the P&L credited to that date from
`1/625` to `1/1250`: the realized P&L of date `t` is affected by a
score-only perturbation at `t`, so it is not the weight vector decided at
step `t-1` dotted with date `t`'s returns. -/
theorem day_return_depends_on_same_day_scores :
    day_return (8/100) [1, 2] [0, 0] [1/100, 2/100] = 1/625 ∧
    day_return (8/100) [2, 1] [0, 0] [1/100, 2/100] = 1/1250 ∧
    day_return (8/100) [1, 2] [0, 0] [1/100, 2/100] ≠
      day_return (8/100) [2, 1] [0, 0] [1/100, 2/100] := by
  refine ⟨?_, ?_, ?_⟩ <;>
  · norm_num [day_return, day_weights, rank_pct, List.range, List.range.loop,
      List.filter, max_def, min_def, abs]

/-- C6: refuted on the code (code bug).  For a panel of 25 rows, at the row
of index `t = 24` the rolling window handed to `bayesian_kelly` contains row
`24` itself — `panel.loc[:dt]` is label-inclusive, so the current date's
realized return is part of the window — and at `t = 5` the `panel.head(20)`
fallback contains row `19`, a date strictly after `t`.  Both contradict the
claim that the window holds only returns from dates strictly before `t`. -/
theorem kelly_window_contains_current_and_future_rows :
    24 ∈ kelly_window_rows 25 24 ∧ 19 ∈ kelly_window_rows 25 5 := by decide

/-! ## C2: OMS idempotency -/

/-- C2: confirmed.  For every OMS state whose registry has not yet seen the
key of `(account, asset, client_token)`, submitting that triple twice yields
a `FILLED` result first and an `IGNORED_DUPLICATE` result second, and the
second submission returns the state exactly as the first submission left it
— in particular cash, positions, total value, the equity curve and the
expected-cost log change exactly once, on the first submission. -/
theorem send_order_idempotent (s : OMSState) (account_id ticker side : String)
    (qty : ℚ) (limit_price : Option ℚ) (client_order_id : String)
    (hfresh : idempotency_key account_id ticker client_order_id ∉ s.idempotency_registry) :
    (∃ fq fp, (send_order s account_id ticker side qty limit_price client_order_id).1
        = .filled ticker side fq fp client_order_id) ∧
    (send_order (send_order s account_id ticker side qty limit_price client_order_id).2
        account_id ticker side qty limit_price client_order_id).1
      = .ignored_duplicate client_order_id ∧
    (send_order (send_order s account_id ticker side qty limit_price client_order_id).2
        account_id ticker side qty limit_price client_order_id).2
      = (send_order s account_id ticker side qty limit_price client_order_id).2 := by
  rw [send_order.eq_def]
  rw [if_neg hfresh]
  refine ⟨⟨qty, _, rfl⟩, ?_, ?_⟩ <;>
  · rw [send_order.eq_def]
    simp

/-- C2 witness: a fresh 25,000-cash account buying 100 shares of AAPL at a
50 limit under client token "tok-1", submitted twice. -/
theorem send_order_idempotent_witness :
    (idempotency_key "ACC1" "AAPL" "tok-1" ∉
      (⟨25000, [], 25000, [], [], []⟩ : OMSState).idempotency_registry) ∧
    ((∃ fq fp, (send_order ⟨25000, [], 25000, [], [], []⟩ "ACC1" "AAPL" "BUY" 100
        (some 50) "tok-1").1 = .filled "AAPL" "BUY" fq fp "tok-1") ∧
      (send_order (send_order ⟨25000, [], 25000, [], [], []⟩ "ACC1" "AAPL" "BUY" 100
          (some 50) "tok-1").2 "ACC1" "AAPL" "BUY" 100 (some 50) "tok-1").1
        = .ignored_duplicate "tok-1" ∧
      (send_order (send_order ⟨25000, [], 25000, [], [], []⟩ "ACC1" "AAPL" "BUY" 100
          (some 50) "tok-1").2 "ACC1" "AAPL" "BUY" 100 (some 50) "tok-1").2
        = (send_order ⟨25000, [], 25000, [], [], []⟩ "ACC1" "AAPL" "BUY" 100
          (some 50) "tok-1").2) :=
  ⟨by simp, send_order_idempotent _ "ACC1" "AAPL" "BUY" 100 (some 50) "tok-1" (by simp)⟩

/-! ## C8: CPCV fold coverage -/

lemma pyRange_append {a b c : ℕ} (hab : a ≤ b) (hbc : b ≤ c) :
    pyRange a b ++ pyRange b c = pyRange a c := by
  unfold pyRange
  have h := List.range'_append a (b - a) (c - b) 1
  rw [one_mul] at h
  have h1 : a + (b - a) = b := by omega
  rw [h1] at h
  rw [h]
  congr 1
  omega

lemma c_chain_mono (c : ℕ → ℕ) (k : ℕ) (h : ∀ i, i < k → c i ≤ c (i + 1)) :
    c 0 ≤ c k := by
  induction k with
  | zero => exact le_refl _
  | succ m ih =>
      exact le_trans (ih fun i hi => h i (by omega)) (h m (by omega))

lemma flatten_map_pyRange (c : ℕ → ℕ) (k : ℕ) (h : ∀ i, i < k → c i ≤ c (i + 1)) :
    ((List.range k).map (fun i => pyRange (c i) (c (i + 1)))).flatten
      = pyRange (c 0) (c k) := by
  induction k with
  | zero => simp [pyRange]
  | succ m ih =>
      rw [List.range_succ, List.map_append, List.flatten_append,
        ih (fun i hi => h i (by omega))]
      simp only [List.map_cons, List.map_nil, List.flatten_cons, List.flatten_nil,
        List.append_nil]
      exact pyRange_append (c_chain_mono c m (fun i hi => h i (by omega))) (h m (by omega))

/-- C8: confirmed.  For every row count `n` and every `n_splits = k ≥ 1`,
the concatenation of the test blocks, in fold order, is exactly the index
list `0, …, n-1` (so every row lies in exactly one test fold), and within
each fold the training indices are exactly the complement of that fold's
test indices in `0, …, n-1` — in particular no row is simultaneously a
training and a test row of the same fold. -/
theorem cpcv_folds_partition (n k : ℕ) (hk : 1 ≤ k) :
    ((cpcv_time_series_folds n k).map Prod.snd).flatten = List.range n ∧
    (∀ tr te, (tr, te) ∈ cpcv_time_series_folds n k →
      ∀ i, i ∈ tr ↔ (i < n ∧ i ∉ te)) := by
  have hk0 : k ≠ 0 := by omega
  set f := n / k with hf
  have hfk : f * k ≤ n := Nat.div_mul_le_self n k
  have hmono : ∀ i, i < k → (fun i => if i < k then i * f else n) i
      ≤ (fun i => if i < k then i * f else n) (i + 1) := by
    intro i hi
    simp only
    by_cases h1 : i + 1 < k
    · rw [if_pos hi, if_pos h1]
      exact Nat.mul_le_mul_right f (by omega)
    · rw [if_pos hi, if_neg h1]
      calc i * f ≤ k * f := Nat.mul_le_mul_right f (by omega)
        _ = f * k := Nat.mul_comm k f
        _ ≤ n := hfk
  constructor
  · unfold cpcv_time_series_folds
    rw [if_neg hk0]
    simp only [List.map_map]
    have heq : List.map (Prod.snd ∘ fun idx =>
        (pyRange 0 (idx * f) ++ pyRange (if idx < k - 1 then (idx + 1) * f else n) n,
          pyRange (idx * f) (if idx < k - 1 then (idx + 1) * f else n))) (List.range k)
        = List.map (fun i => pyRange ((fun i => if i < k then i * f else n) i)
            ((fun i => if i < k then i * f else n) (i + 1))) (List.range k) := by
      apply List.map_congr_left
      intro a ha
      have ha' : a < k := List.mem_range.mp ha
      simp only [Function.comp_apply]
      rw [if_pos ha']
      congr 1
      by_cases h2 : a + 1 < k
      · rw [if_pos (by omega), if_pos h2]
      · rw [if_neg (by omega), if_neg h2]
    rw [heq, flatten_map_pyRange _ k hmono]
    rw [if_pos (by omega : 0 < k), if_neg (by omega : ¬ k < k)]
    simp [pyRange, List.range_eq_range']
  · intro tr te hmem i
    unfold cpcv_time_series_folds at hmem
    rw [if_neg hk0] at hmem
    obtain ⟨idx, hidx, heq⟩ := List.mem_map.mp hmem
    have hidx' : idx < k := List.mem_range.mp hidx
    simp only at heq
    have htr : tr = pyRange 0 (idx * f)
        ++ pyRange (if idx < k - 1 then (idx + 1) * f else n) n := by
      have := congrArg Prod.fst heq
      simpa using this.symm
    have hte : te = pyRange (idx * f) (if idx < k - 1 then (idx + 1) * f else n) := by
      have := congrArg Prod.snd heq
      simpa using this.symm
    have hkf : k * f ≤ n := by
      calc k * f = f * k := Nat.mul_comm k f
        _ ≤ n := hfk
    have hse : idx * f ≤ (if idx < k - 1 then (idx + 1) * f else n) := by
      by_cases h2 : idx < k - 1
      · rw [if_pos h2]; exact Nat.mul_le_mul_right f (by omega)
      · rw [if_neg h2]
        calc idx * f ≤ k * f := Nat.mul_le_mul_right f (by omega)
          _ ≤ n := hkf
    have hen : (if idx < k - 1 then (idx + 1) * f else n) ≤ n := by
      by_cases h2 : idx < k - 1
      · rw [if_pos h2]
        calc (idx + 1) * f ≤ k * f := Nat.mul_le_mul_right f (by omega)
          _ ≤ n := hkf
      · rw [if_neg h2]
    subst htr hte
    simp only [pyRange, List.mem_append, List.mem_range'_1]
    omega

/-- C8 witness: the coverage and complement property instantiated at
`n = 5` rows and `k = 2` folds. -/
theorem cpcv_folds_partition_witness :
    1 ≤ 2 ∧
    (((cpcv_time_series_folds 5 2).map Prod.snd).flatten = List.range 5 ∧
      (∀ tr te, (tr, te) ∈ cpcv_time_series_folds 5 2 →
        ∀ i, i ∈ tr ↔ (i < 5 ∧ i ∉ te))) :=
  ⟨by decide, cpcv_folds_partition 5 2 (by decide)⟩

/-! ## C9 and C10: probability-of-backtest-overfitting proxy -/

lemma foldl_best_spec (l : List ℚ) (xs : List ℕ) (b : ℕ) :
    (xs.foldl (fun b i => if l.getD b 0 ≤ l.getD i 0 then i else b) b = b ∨
      xs.foldl (fun b i => if l.getD b 0 ≤ l.getD i 0 then i else b) b ∈ xs) ∧
    l.getD b 0 ≤ l.getD (xs.foldl (fun b i => if l.getD b 0 ≤ l.getD i 0 then i else b) b) 0 ∧
    (∀ j ∈ xs, l.getD j 0 ≤
      l.getD (xs.foldl (fun b i => if l.getD b 0 ≤ l.getD i 0 then i else b) b) 0) := by
  induction xs generalizing b with
  | nil => exact ⟨Or.inl rfl, le_refl _, by simp⟩
  | cons x xs ih =>
      simp only [List.foldl_cons]
      obtain ⟨hmem, hge, hall⟩ := ih (if l.getD b 0 ≤ l.getD x 0 then x else b)
      have hb : l.getD b 0 ≤ l.getD (if l.getD b 0 ≤ l.getD x 0 then x else b) 0 := by
        split
        · assumption
        · exact le_refl _
      have hx : l.getD x 0 ≤ l.getD (if l.getD b 0 ≤ l.getD x 0 then x else b) 0 := by
        split
        · exact le_refl _
        · exact le_of_not_le (by assumption)
      refine ⟨?_, le_trans hb hge, ?_⟩
      · rcases hmem with h | h
        · rw [h]
          split
          · exact Or.inr (List.mem_cons_self _ _)
          · exact Or.inl rfl
        · exact Or.inr (List.mem_cons_of_mem _ h)
      · intro j hj
        rcases List.mem_cons.mp hj with h | h
        · exact le_trans (h ▸ hx) hge
        · exact hall j h

lemma best_index_spec (l : List ℚ) (h : l ≠ []) :
    best_index l < l.length ∧
    ∀ i, i < l.length → l.getD i 0 ≤ l.getD (best_index l) 0 := by
  obtain ⟨hmem, _, hall⟩ := foldl_best_spec l (List.range l.length) 0
  have hlen : 0 < l.length := List.length_pos.mpr h
  constructor
  · rcases hmem with h' | h'
    · rw [best_index, h']; exact hlen
    · exact List.mem_range.mp h'
  · intro i hi
    exact hall i (List.mem_range.mpr hi)

/-- C9: confirmed.  On equal-length non-empty score lists `pbo_approx`
only ever returns `0` or `1`, and it returns `0` exactly when the best
in-sample index equals the best out-of-sample index; `best_index` is a
genuine argmax — it is a valid position of its list and its entry is at
least every entry of the list. -/
theorem pbo_approx_binary (scores_is scores_oos : List ℚ)
    (hlen : scores_is.length = scores_oos.length) (hne : scores_is ≠ []) :
    (pbo_approx scores_is scores_oos = 0 ∨ pbo_approx scores_is scores_oos = 1) ∧
    (pbo_approx scores_is scores_oos = 0 ↔
      best_index scores_is = best_index scores_oos) ∧
    best_index scores_is < scores_is.length ∧
    (∀ i, i < scores_is.length →
      scores_is.getD i 0 ≤ scores_is.getD (best_index scores_is) 0) ∧
    best_index scores_oos < scores_oos.length ∧
    (∀ i, i < scores_oos.length →
      scores_oos.getD i 0 ≤ scores_oos.getD (best_index scores_oos) 0) := by
  have h0 : scores_is.length ≠ 0 := by
    simpa [List.length_eq_zero] using hne
  have hoos : scores_oos ≠ [] := by
    intro h
    rw [h] at hlen
    exact h0 (by simpa using hlen)
  obtain ⟨his1, his2⟩ := best_index_spec scores_is hne
  obtain ⟨hoos1, hoos2⟩ := best_index_spec scores_oos hoos
  unfold pbo_approx
  rw [if_neg (by push_neg; exact ⟨hlen, h0⟩)]
  refine ⟨?_, ?_, his1, his2, hoos1, hoos2⟩
  · split
    · exact Or.inl rfl
    · exact Or.inr rfl
  · split
    · simp_all
    · simp only [one_ne_zero, false_iff]
      assumption

/-- C9 witness: the binary characterisation instantiated at the score
lists `[1, 2]` (best index 1) and `[3, 1]` (best index 0). -/
theorem pbo_approx_binary_witness :
    ([(1:ℚ), 2].length = [(3:ℚ), 1].length ∧ [(1:ℚ), 2] ≠ []) ∧
    ((pbo_approx [(1:ℚ), 2] [(3:ℚ), 1] = 0 ∨ pbo_approx [(1:ℚ), 2] [(3:ℚ), 1] = 1) ∧
      (pbo_approx [(1:ℚ), 2] [(3:ℚ), 1] = 0 ↔
        best_index [(1:ℚ), 2] = best_index [(3:ℚ), 1]) ∧
      best_index [(1:ℚ), 2] < [(1:ℚ), 2].length ∧
      (∀ i, i < [(1:ℚ), 2].length →
        [(1:ℚ), 2].getD i 0 ≤ [(1:ℚ), 2].getD (best_index [(1:ℚ), 2]) 0) ∧
      best_index [(3:ℚ), 1] < [(3:ℚ), 1].length ∧
      (∀ i, i < [(3:ℚ), 1].length →
        [(3:ℚ), 1].getD i 0 ≤ [(3:ℚ), 1].getD (best_index [(3:ℚ), 1]) 0)) :=
  ⟨⟨rfl, by simp⟩, pbo_approx_binary [(1:ℚ), 2] [(3:ℚ), 1] rfl (by simp)⟩

/-- C10: confirmed.  `pbo_approx` applied to the same non-empty list for
both arguments returns `0` (equal lengths, identical best indices), so the
`pbo` field produced by `cpcv_validate` — which passes its single per-fold
Sharpe list as both the in-sample and the out-of-sample argument — equals
`0` for every run with at least one fold, regardless of the data. -/
theorem cpcv_validate_pbo_zero (s : List ℚ) (hs : s ≠ []) :
    pbo_approx s s = 0 ∧ cpcv_validate_pbo s = 0 := by
  have h0 : s.length ≠ 0 := by simpa [List.length_eq_zero] using hs
  have hp : pbo_approx s s = 0 := by
    unfold pbo_approx
    rw [if_neg (by push_neg; exact ⟨rfl, h0⟩), if_pos rfl]
  exact ⟨hp, by rw [cpcv_validate_pbo, if_neg hs]; exact hp⟩

/-- C10 witness: the degenerate-PBO fact at the Sharpe list `[5, -3]`. -/
theorem cpcv_validate_pbo_zero_witness :
    [(5:ℚ), -3] ≠ [] ∧ (pbo_approx [(5:ℚ), -3] [(5:ℚ), -3] = 0 ∧
      cpcv_validate_pbo [(5:ℚ), -3] = 0) :=
  ⟨by simp, cpcv_validate_pbo_zero [(5:ℚ), -3] (by simp)⟩

/-! ## C3 and C5: gross leverage of the optimizer and the sizer -/

lemma abs_map_sum_nonneg (w : List ℚ) : 0 ≤ (w.map (fun x => |x|)).sum := by
  apply List.sum_nonneg
  intro x hx
  obtain ⟨y, _, rfl⟩ := List.mem_map.mp hx
  exact abs_nonneg y

lemma abs_sum_rescale (w : List ℚ) (L : ℚ) (hL : 0 ≤ L)
    (hlev : 0 < (w.map (fun x => |x|)).sum) :
    ((w.map (· * (L / (w.map (fun x => |x|)).sum))).map (fun x => |x|)).sum = L := by
  set lev := (w.map (fun x => |x|)).sum with hlev_def
  rw [List.map_map]
  have h1 : ((fun x => |x|) ∘ fun x => x * (L / lev)) = fun x => |x| * (L / lev) := by
    funext x
    simp only [Function.comp_apply, abs_mul]
    congr 1
    exact abs_of_nonneg (div_nonneg hL (le_of_lt hlev))
  rw [h1]
  have h2 : (w.map fun x => |x| * (L / lev)).sum = (w.map fun x => |x|).sum * (L / lev) :=
    List.sum_map_mul_right w (fun x => |x|) (L / lev)
  rw [h2, ← hlev_def]
  field_simp

lemma sum_nonneg_eq_zero {l : List ℚ} (h0 : ∀ x ∈ l, 0 ≤ x) (hs : l.sum = 0) :
    ∀ x ∈ l, x = 0 := by
  induction l with
  | nil => simp
  | cons a t ih =>
      simp only [List.sum_cons] at hs
      have ha : 0 ≤ a := h0 a (by simp)
      have ht : 0 ≤ t.sum := List.sum_nonneg (fun x hx => h0 x (List.mem_cons_of_mem _ hx))
      intro x hx
      rcases List.mem_cons.mp hx with rfl | hx'
      · linarith
      · exact ih (fun y hy => h0 y (List.mem_cons_of_mem _ hy)) (by linarith) x hx'

/-- Full behaviour of `_fallback_weights` for a positive leverage ceiling
and a non-empty forecast vector: gross leverage lands exactly on the
ceiling, the all-zero forecast case yields equal weights `L/n`, and
otherwise the weights are `cP`-proportional to the forecast magnitude on
the long side and `cN`-proportional on the short side, short side
subtracted. -/
lemma fallback_weights_spec (L : ℚ) (hL : 0 < L) (er : List ℚ) (her : er ≠ []) :
    ((fallback_weights L er).map (fun x => |x|)).sum = L ∧
    ((∀ x ∈ er, x = 0) →
      fallback_weights L er = er.map (fun _ => L / (er.length : ℚ))) ∧
    (¬(∀ x ∈ er, x = 0) → ∃ cP cN : ℚ, 0 < cP ∧ 0 < cN ∧
      fallback_weights L er = er.map (fun x => cP * max x 0 - cN * max (-x) 0)) := by
  have hlen : (0:ℚ) < (er.length : ℚ) := by
    have := List.length_pos.mpr her
    exact_mod_cast this
  have hP : 0 ≤ (er.map (fun x => max x 0)).sum :=
    List.sum_nonneg (fun x hx => by
      obtain ⟨y, _, rfl⟩ := List.mem_map.mp hx; exact le_max_right y 0)
  have hN : 0 ≤ (er.map (fun x => max (-x) 0)).sum :=
    List.sum_nonneg (fun x hx => by
      obtain ⟨y, _, rfl⟩ := List.mem_map.mp hx; exact le_max_right (-y) 0)
  set P := (er.map (fun x => max x 0)).sum with hPdef
  set N := (er.map (fun x => max (-x) 0)).sum with hNdef
  by_cases htot : P + N = 0
  · have hallzero : ∀ x ∈ er, x = 0 := by
      have hP0 : P = 0 := by linarith
      have hN0 : N = 0 := by linarith
      intro x hx
      have h1 : max x 0 = 0 := by
        have := sum_nonneg_eq_zero (l := er.map (fun x => max x 0))
          (fun y hy => by obtain ⟨z, _, rfl⟩ := List.mem_map.mp hy; exact le_max_right z 0)
          (hPdef ▸ hP0) (max x 0) (List.mem_map.mpr ⟨x, hx, rfl⟩)
        exact this
      have h2 : max (-x) 0 = 0 := by
        have := sum_nonneg_eq_zero (l := er.map (fun x => max (-x) 0))
          (fun y hy => by obtain ⟨z, _, rfl⟩ := List.mem_map.mp hy; exact le_max_right (-z) 0)
          (hNdef ▸ hN0) (max (-x) 0) (List.mem_map.mpr ⟨x, hx, rfl⟩)
        exact this
      have hx1 : x ≤ 0 := by
        by_contra hc
        push_neg at hc
        rw [max_eq_left (le_of_lt hc)] at h1
        linarith
      have hx2 : 0 ≤ x := by
        by_contra hc
        push_neg at hc
        rw [max_eq_left (by linarith : (0:ℚ) ≤ -x)] at h2
        linarith
      linarith
    have hbody : fallback_weights L er = er.map (fun _ => L / (er.length : ℚ)) := by
      rw [fallback_weights]
      rw [if_neg her]
      simp only [← hPdef, ← hNdef]
      rw [if_pos htot]
      have hconst : (er.map (fun _ => 1 / (er.length : ℚ))).map (fun x => |x|) =
          er.map (fun _ => 1 / (er.length : ℚ)) := by
        rw [List.map_map]
        apply List.map_congr_left
        intro a _
        simp only [Function.comp_apply]
        exact abs_of_pos (by positivity)
      rw [hconst]
      have hsum : (er.map (fun _ => 1 / (er.length : ℚ))).sum = 1 := by
        rw [List.map_const', List.sum_replicate, nsmul_eq_mul]
        field_simp
      rw [hsum, if_pos one_pos, List.map_map]
      apply List.map_congr_left
      intro a _
      simp only [Function.comp_apply]
      field_simp
    refine ⟨?_, fun _ => hbody, fun hc => absurd hallzero hc⟩
    rw [hbody]
    have hconst2 : (er.map (fun _ => L / (er.length : ℚ))).map (fun x => |x|)
        = er.map (fun _ => L / (er.length : ℚ)) := by
      rw [List.map_map]
      apply List.map_congr_left
      intro a _
      simp only [Function.comp_apply]
      exact abs_of_pos (by positivity)
    rw [hconst2, List.map_const', List.sum_replicate, nsmul_eq_mul]
    field_simp
  · have hnotall : ¬(∀ x ∈ er, x = 0) := by
      intro hall
      apply htot
      have hP0 : P = 0 := by
        rw [hPdef]
        apply List.sum_eq_zero
        intro y hy
        obtain ⟨z, hz, rfl⟩ := List.mem_map.mp hy
        rw [hall z hz]
        simp
      have hN0 : N = 0 := by
        rw [hNdef]
        apply List.sum_eq_zero
        intro y hy
        obtain ⟨z, hz, rfl⟩ := List.mem_map.mp hy
        rw [hall z hz]
        simp
      rw [hP0, hN0, add_zero]
    have hPe : (0:ℚ) < P + 1 / 100000000 := by linarith
    have hNe : (0:ℚ) < N + 1 / 100000000 := by linarith
    have hzip : List.zipWith (fun p q => p / (P + 1 / 100000000) - q / (N + 1 / 100000000))
        (er.map (fun x => max x 0)) (er.map (fun x => max (-x) 0))
        = er.map (fun x => max x 0 / (P + 1 / 100000000)
            - max (-x) 0 / (N + 1 / 100000000)) := by
      rw [List.zipWith_map_left, List.zipWith_map_right, List.zipWith_same]
    have habs : (er.map (fun x => max x 0 / (P + 1 / 100000000)
          - max (-x) 0 / (N + 1 / 100000000))).map (fun x => |x|)
        = er.map (fun x => max x 0 / (P + 1 / 100000000)
            + max (-x) 0 / (N + 1 / 100000000)) := by
      rw [List.map_map]
      apply List.map_congr_left
      intro a _
      simp only [Function.comp_apply]
      rcases le_or_lt 0 a with h | h
      · rw [max_eq_right (by linarith : -a ≤ 0)]
        simp only [zero_div, sub_zero, add_zero]
        exact abs_of_nonneg (div_nonneg (le_max_right a 0) (le_of_lt hPe))
      · rw [max_eq_right (le_of_lt h), max_eq_left (by linarith : (0:ℚ) ≤ -a)]
        simp only [zero_div, zero_sub, zero_add, abs_neg]
        exact abs_of_nonneg (div_nonneg (by linarith) (le_of_lt hNe))
    have hlev_eq : (er.map (fun x => max x 0 / (P + 1 / 100000000)
          + max (-x) 0 / (N + 1 / 100000000))).sum
        = P / (P + 1 / 100000000) + N / (N + 1 / 100000000) := by
      rw [List.sum_map_add]
      congr 1
      · have hstep : (er.map (fun x => max x 0 / (P + 1 / 100000000)))
            = (er.map (fun x => max x 0)).map (· * (1 / (P + 1 / 100000000))) := by
          rw [List.map_map]
          apply List.map_congr_left
          intro a _
          simp only [Function.comp_apply]
          ring
        rw [hstep, List.sum_map_mul_right, List.map_id', ← hPdef]
        ring
      · have hstep : (er.map (fun x => max (-x) 0 / (N + 1 / 100000000)))
            = (er.map (fun x => max (-x) 0)).map (· * (1 / (N + 1 / 100000000))) := by
          rw [List.map_map]
          apply List.map_congr_left
          intro a _
          simp only [Function.comp_apply]
          ring
        rw [hstep, List.sum_map_mul_right, List.map_id', ← hNdef]
        ring
    have hlev_pos : 0 < P / (P + 1 / 100000000) + N / (N + 1 / 100000000) := by
      rcases (lt_or_le 0 P) with h | h
      · have h1 : 0 < P / (P + 1 / 100000000) := by positivity
        have h2 : 0 ≤ N / (N + 1 / 100000000) := by positivity
        linarith
      · have hP0 : P = 0 := le_antisymm h hP
        have hN0 : 0 < N := by
          rcases lt_or_le 0 N with h' | h'
          · exact h'
          · exact absurd (by linarith : P + N = 0) htot
        have h1 : 0 < N / (N + 1 / 100000000) := by positivity
        have h2 : 0 ≤ P / (P + 1 / 100000000) := by positivity
        linarith
    set w0 := er.map (fun x => max x 0 / (P + 1 / 100000000)
      - max (-x) 0 / (N + 1 / 100000000)) with hw0
    have hlevpos' : 0 < (w0.map (fun x => |x|)).sum := by
      rw [hw0, habs, hlev_eq]
      exact hlev_pos
    have hbody : fallback_weights L er = w0.map (· * (L / (w0.map (fun x => |x|)).sum)) := by
      rw [fallback_weights, if_neg her]
      simp only [← hPdef, ← hNdef]
      rw [if_neg htot, hzip, if_pos hlevpos']
    have h1 : ((fallback_weights L er).map (fun x => |x|)).sum = L := by
      rw [hbody]
      exact abs_sum_rescale w0 L (le_of_lt hL) hlevpos'
    refine ⟨h1, fun hall => absurd hall hnotall, fun _ => ?_⟩
    refine ⟨(L / (w0.map (fun x => |x|)).sum) / (P + 1 / 100000000),
            (L / (w0.map (fun x => |x|)).sum) / (N + 1 / 100000000), ?_, ?_, ?_⟩
    · exact div_pos (div_pos hL hlevpos') hPe
    · exact div_pos (div_pos hL hlevpos') hNe
    · rw [hbody, hw0, List.map_map]
      apply List.map_congr_left
      intro a _
      simp only [Function.comp_apply]
      ring

/-- C5: confirmed.  For every positive leverage ceiling and non-empty
expected-returns vector, whenever the solver fails (any non-optimal
status, covering exceptions, infeasibility and solver absence) or returns
no solution vector, `optimize_weights` still returns a weight vector whose
gross leverage equals the ceiling exactly; the weights are proportional,
within the positive group and within the negative group, to the magnitude
of the expected return (the negative group subtracted from the positive
group), and all-zero forecasts yield equal weights `L/n`. -/
theorem optimize_weights_fallback_never_fails (L : ℚ) (hL : 0 < L)
    (solver_status : String) (raw_w : Option (List ℚ)) (er : List ℚ) (her : er ≠ [])
    (hfail : (solver_status ≠ "optimal" ∧ solver_status ≠ "optimal_inaccurate") ∨
      raw_w = none) :
    ∃ ws, optimize_weights L solver_status raw_w er = .ok ws ∧
      (ws.map (fun x => |x|)).sum = L ∧
      ((∀ x ∈ er, x = 0) → ws = er.map (fun _ => L / (er.length : ℚ))) ∧
      (¬(∀ x ∈ er, x = 0) → ∃ cP cN : ℚ, 0 < cP ∧ 0 < cN ∧
        ws = er.map (fun x => cP * max x 0 - cN * max (-x) 0)) := by
  have hlen : ¬ er.length = 0 := by simpa [List.length_eq_zero] using her
  obtain ⟨h1, h2, h3⟩ := fallback_weights_spec L hL er her
  refine ⟨fallback_weights L er, ?_, h1, h2, h3⟩
  rw [optimize_weights.eq_def, if_neg hlen]
  rcases hfail with h | h
  · rw [if_pos h]
  · by_cases hst : solver_status ≠ "optimal" ∧ solver_status ≠ "optimal_inaccurate"
    · rw [if_pos hst]
    · rw [if_neg hst, h]

/-- C5 witness: the fallback guarantee at ceiling `2`, status
`"infeasible"`, a discarded raw vector, and forecasts `(1%, -1%, 0)`. -/
theorem optimize_weights_fallback_witness :
    ((0:ℚ) < 2 ∧ ([(1:ℚ)/100, -(1:ℚ)/100, 0] ≠ []) ∧
      (("infeasible" ≠ "optimal" ∧ "infeasible" ≠ "optimal_inaccurate") ∨
        (some [(0:ℚ)] = none))) ∧
    (∃ ws, optimize_weights 2 "infeasible" (some [(0:ℚ)]) [(1:ℚ)/100, -(1:ℚ)/100, 0]
        = .ok ws ∧
      (ws.map (fun x => |x|)).sum = 2 ∧
      ((∀ x ∈ [(1:ℚ)/100, -(1:ℚ)/100, 0], x = 0) →
        ws = [(1:ℚ)/100, -(1:ℚ)/100, 0].map
          (fun _ => 2 / (([(1:ℚ)/100, -(1:ℚ)/100, 0].length : ℚ)))) ∧
      (¬(∀ x ∈ [(1:ℚ)/100, -(1:ℚ)/100, 0], x = 0) → ∃ cP cN : ℚ, 0 < cP ∧ 0 < cN ∧
        ws = [(1:ℚ)/100, -(1:ℚ)/100, 0].map
          (fun x => cP * max x 0 - cN * max (-x) 0))) :=
  ⟨⟨by norm_num, by simp, Or.inl (by simp)⟩,
    optimize_weights_fallback_never_fails 2 (by norm_num) "infeasible"
      (some [(0:ℚ)]) [(1:ℚ)/100, -(1:ℚ)/100, 0] (by simp) (Or.inl (by simp))⟩

/-- C3 (amended): every weight vector returned by `optimize_weights` —
on the solver path, for any raw solver vector, and on the fallback path —
has gross leverage at most the configured ceiling (exactly, so a fortiori
within any floating-point tolerance).  The Position Sizer's part of the
original claim is refuted by `bayesian_kelly_leverage_exceeds_ceiling`
below. -/
theorem optimize_weights_leverage_bounded (L : ℚ) (hL : 0 < L)
    (solver_status : String) (raw_w : Option (List ℚ)) (er : List ℚ) (her : er ≠ [])
    (ws : List ℚ)
    (hok : optimize_weights L solver_status raw_w er = .ok ws) :
    (ws.map (fun x => |x|)).sum ≤ L := by
  have hlen : ¬ er.length = 0 := by simpa [List.length_eq_zero] using her
  obtain ⟨h1, _, _⟩ := fallback_weights_spec L hL er her
  rw [optimize_weights.eq_def, if_neg hlen] at hok
  by_cases hst : solver_status ≠ "optimal" ∧ solver_status ≠ "optimal_inaccurate"
  · rw [if_pos hst] at hok
    injection hok with hok
    rw [← hok, h1]
  · rw [if_neg hst] at hok
    cases raw_w with
    | none =>
        simp only at hok
        injection hok with hok
        rw [← hok, h1]
    | some w =>
        simp only at hok
        injection hok with hok
        by_cases hlev : 0 < (w.map (fun x => |x|)).sum
        · rw [if_pos hlev] at hok
          rw [← hok, abs_sum_rescale w L (le_of_lt hL) hlev]
        · rw [if_neg hlev] at hok
          rw [← hok]
          have h0 : (w.map (fun x => |x|)).sum = 0 :=
            le_antisymm (not_lt.mp hlev) (abs_map_sum_nonneg w)
          rw [h0]
          exact le_of_lt hL

/-- C3 witness: the leverage bound at ceiling `2` on the fallback path for
forecasts `(1%, -1%, 0)`. -/
theorem optimize_weights_leverage_bounded_witness :
    ((0:ℚ) < 2 ∧ ([(1:ℚ)/100, -(1:ℚ)/100, 0] ≠ []) ∧
      optimize_weights 2 "infeasible" none [(1:ℚ)/100, -(1:ℚ)/100, 0]
        = .ok (fallback_weights 2 [(1:ℚ)/100, -(1:ℚ)/100, 0])) ∧
    ((fallback_weights 2 [(1:ℚ)/100, -(1:ℚ)/100, 0]).map (fun x => |x|)).sum ≤ 2 :=
  ⟨⟨by norm_num, by simp, by rw [optimize_weights.eq_def]; simp⟩,
    optimize_weights_leverage_bounded 2 (by norm_num) "infeasible" none
      [(1:ℚ)/100, -(1:ℚ)/100, 0] (by simp) _ (by rw [optimize_weights.eq_def]; simp)⟩

lemma insertionSort_replicate (n : ℕ) (c : ℚ) :
    (List.replicate n c).insertionSort (· ≤ ·) = List.replicate n c := by
  apply List.Sorted.insertionSort_eq
  exact List.pairwise_replicate.mpr (Or.inr (le_refl c))

lemma getD_replicate {n i : ℕ} (c d : ℚ) (h : i < n) :
    (List.replicate n c).getD i d = c := by
  rw [List.getD_eq_getElem?_getD, List.getElem?_replicate, if_pos h]
  rfl

lemma npQuantile_replicate_500 (c : ℚ) :
    npQuantile (List.replicate 500 c) ((1 - 95 / 100) / 2) = c := by
  unfold npQuantile
  rw [insertionSort_replicate]
  simp only [List.length_replicate]
  have hfloor : (⌊((1 - (95:ℚ) / 100) / 2) * ((500 : ℕ) - 1 : ℚ)⌋).toNat = 12 := by
    have h12 : ⌊((1 - (95:ℚ) / 100) / 2) * ((500 : ℕ) - 1 : ℚ)⌋ = 12 := by norm_num
    rw [h12]
    decide
  rw [hfloor]
  rw [getD_replicate c 0 (by norm_num : 12 < 500)]
  rw [getD_replicate c c (by norm_num : 13 < 500)]
  ring

/-- C3 counterexample: the claim is false for the Position Sizer.  For the
single-asset returns panel of two constant `+1%` observations — on which
every possible with-replacement bootstrap resample equals the panel itself,
so the seeded generator's draws are forced — `bayesian_kelly` returns the
weight vector `(3)`: the sample covariance is `0`, each draw's regularised
Kelly solve is `0.01/1e-8 = 10^6`, the 2.5th percentile of the constant
draws is `10^6`, the fractional-Kelly weight is `250000`, and the
expected-shortfall rescale brings it only down to `3`.  Gross leverage `3`
exceeds every configured ceiling (`2.0` in both configs) plus any
floating-point tolerance below one, e.g. `1e-6`. -/
theorem bayesian_kelly_leverage_exceeds_ceiling :
    bayesian_kelly_1asset [1/100, 1/100] (List.replicate 500 [1/100, 1/100]) = 3 ∧
    ¬ ((3:ℚ) ≤ 2 + 1/1000000) := by
  constructor
  · have hk : kelly_draw_1asset [1/100, 1/100] = 1000000 := by
      norm_num [kelly_draw_1asset, sampleVar, listMean]
    simp only [bayesian_kelly_1asset]
    rw [List.map_replicate, hk, npQuantile_replicate_500]
    have hne : ([2500, 2500] : List ℚ) ≠ [] := by simp
    norm_num [expected_shortfall, npQuantile, List.insertionSort, List.orderedInsert,
      List.filter, max_def, min_def, abs, hne]
  · norm_num

/-! ## C7: exactness of the expected-shortfall budget rescale -/

lemma sort_map_mul (l : List ℚ) (c : ℚ) (hc : 0 < c) :
    (l.map (· * c)).insertionSort (· ≤ ·)
      = (l.insertionSort (· ≤ ·)).map (· * c) := by
  symm
  apply List.map_insertionSort
  intro a _ b _
  constructor
  · intro h
    exact mul_le_mul_of_nonneg_right h (le_of_lt hc)
  · intro h
    exact le_of_mul_le_mul_right h hc

lemma npQuantile_map_mul (l : List ℚ) (p c : ℚ) (hc : 0 < c) :
    npQuantile (l.map (· * c)) p = npQuantile l p * c := by
  simp only [npQuantile, sort_map_mul l c hc, List.length_map]
  set s := l.insertionSort (· ≤ ·) with hs
  set i := (⌊p * ((l.length : ℚ) - 1)⌋).toNat with hi
  have ha : (s.map (· * c)).getD i 0 = s.getD i 0 * c := by
    have h := List.getD_map s 0 (n := i) (· * c)
    simpa using h
  have hb : (s.map (· * c)).getD (i + 1) (s.getD i 0 * c)
      = s.getD (i + 1) (s.getD i 0) * c := List.getD_map s (s.getD i 0) (· * c)
  rw [ha, hb]
  ring

lemma filter_le_map_mul (l : List ℚ) (cut c : ℚ) (hc : 0 < c) :
    (l.map (· * c)).filter (· ≤ cut * c) = (l.filter (· ≤ cut)).map (· * c) := by
  rw [List.filter_map]
  congr 1
  apply List.filter_congr
  intro x _
  simp only [Function.comp_apply, decide_eq_decide]
  constructor
  · intro h
    exact le_of_mul_le_mul_right h hc
  · intro h
    exact mul_le_mul_of_nonneg_right h (le_of_lt hc)

/-- Positive homogeneity of the empirical expected shortfall: scaling every
observation by `c > 0` scales the expected shortfall by `c` (the sorted
order, the interpolated quantile, and the tail selection all commute with
positive scaling). -/
lemma expected_shortfall_map_mul (l : List ℚ) (q c : ℚ) (hc : 0 < c) :
    expected_shortfall (l.map (· * c)) q = expected_shortfall l q * c := by
  by_cases hl : l = []
  · subst hl
    simp [expected_shortfall]
  · have hml : ¬ l.map (· * c) = [] := by simpa [List.map_eq_nil_iff] using hl
    simp only [expected_shortfall, if_neg hl, if_neg hml]
    rw [npQuantile_map_mul l (1 - q) c hc, filter_le_map_mul l _ c hc]
    by_cases ht : l.filter (· ≤ npQuantile l (1 - q)) = []
    · rw [ht]
      simp
    · have hmt : ¬ (l.filter (· ≤ npQuantile l (1 - q))).map (· * c) = [] := by
        simpa [List.map_eq_nil_iff] using ht
      rw [if_neg hmt, if_neg ht, List.length_map]
      set tl := l.filter (· ≤ npQuantile l (1 - q))
      have hsum : (tl.map (· * c)).sum = tl.sum * c := by
        have h := List.sum_map_mul_right tl id c
        simpa using h
      rw [hsum]
      ring

lemma port_returns_map_mul (R : List (List ℚ)) (w : List ℚ) (c : ℚ) :
    port_returns R (w.map (· * c)) = (port_returns R w).map (· * c) := by
  unfold port_returns
  rw [List.map_map]
  apply List.map_congr_left
  intro row _
  simp only [Function.comp_apply]
  rw [List.zipWith_map_right]
  have h1 : List.zipWith (fun a b => a * (b * c)) row w
      = (List.zipWith (· * ·) row w).map (· * c) := by
    rw [List.map_zipWith]
    congr 1
    funext a b
    ring
  rw [h1]
  have h := List.sum_map_mul_right (List.zipWith (· * ·) row w) id c
  simpa using h

/-- C7: confirmed.  When no accessors are supplied and the portfolio
implied by the post-percentile, fraction-scaled weights `w` has historical
95% expected-shortfall magnitude strictly above the positive budget `b`,
`bayesian_kelly` returns exactly the uniform rescaling of `w` by
`b / |ES95|`, and — by positive homogeneity of the empirical expected
shortfall, in the exact arithmetic of `ℚ` — the returned portfolio's 95%
expected-shortfall magnitude equals `b` exactly. -/
theorem es_rescale_meets_budget (b : ℚ) (R : List (List ℚ)) (w : List ℚ)
    (hb : 0 < b)
    (hes : b < |expected_shortfall (port_returns R w) (95/100)|) :
    es_rescale b R w
      = w.map (· * (b / |expected_shortfall (port_returns R w) (95/100)|)) ∧
    |expected_shortfall (port_returns R (es_rescale b R w)) (95/100)| = b := by
  have habs : 0 < |expected_shortfall (port_returns R w) (95/100)| := lt_trans hb hes
  have hc : 0 < b / |expected_shortfall (port_returns R w) (95/100)| := div_pos hb habs
  have h1 : es_rescale b R w
      = w.map (· * (b / |expected_shortfall (port_returns R w) (95/100)|)) := by
    rw [es_rescale]
    rw [if_pos ⟨hes, hb⟩]
  refine ⟨h1, ?_⟩
  rw [h1, port_returns_map_mul, expected_shortfall_map_mul _ _ _ hc]
  rw [abs_mul, abs_of_pos hc]
  field_simp

/-- C7 witness: a single asset held at weight `1` over the three-day return
history `(-20%, -10%, +30%)`, whose ES95 magnitude `1/5` exceeds the `3%`
budget; the rescaled portfolio's ES95 magnitude equals the budget. -/
theorem es_rescale_meets_budget_witness :
    ((0:ℚ) < 3/100 ∧
      (3:ℚ)/100 < |expected_shortfall (port_returns [[-1/5], [-1/10], [3/10]] [1]) (95/100)|) ∧
    (es_rescale (3/100) [[-1/5], [-1/10], [3/10]] [1]
        = [(1:ℚ)].map
          (· * ((3/100) / |expected_shortfall (port_returns [[-1/5], [-1/10], [3/10]] [1]) (95/100)|)) ∧
      |expected_shortfall
        (port_returns [[-1/5], [-1/10], [3/10]] (es_rescale (3/100) [[-1/5], [-1/10], [3/10]] [1]))
        (95/100)| = 3/100) := by
  have hes : |expected_shortfall (port_returns [[-1/5], [-1/10], [3/10]] [1]) (95/100)| = 1/5 := by
    norm_num [expected_shortfall, port_returns, npQuantile, List.insertionSort,
      List.orderedInsert, List.filter, max_def, min_def, abs, List.cons_ne_nil]
  exact ⟨⟨by norm_num, by rw [hes]; norm_num⟩,
    es_rescale_meets_budget (3/100) [[-1/5], [-1/10], [3/10]] [1] (by norm_num)
      (by rw [hes]; norm_num)⟩

/-! ## C4: the risk monitor's ordered check -/

/-- C4 counterexample: the claim's "KILL_SWITCH only when the realized
cumulative P&L *loss* exceeds the threshold" is false on the code.  The
source compares `dd = abs(recent.sum())` (`risk_management.py` line 107), so
a window of ten pure *gains* of `+1` — cumulative P&L `+10`, loss `0` —
still trips the kill switch: `|sum| = 10 > 3 × |ES95| = 3 × 1`. -/
theorem kill_switch_fires_on_pure_gains :
    check_risk_limits_with_cooldown ⟨[], 1⟩ (List.replicate 10 1) none = .kill_switch ∧
    ∀ x ∈ List.replicate 10 (1:ℚ), 0 < x := by
  constructor
  · have hrep : List.replicate 10 (1:ℚ) = [1, 1, 1, 1, 1, 1, 1, 1, 1, 1] := rfl
    have hne : ([1,1,1,1,1,1,1,1,1,1] : List ℚ) ≠ [] := by simp
    norm_num [check_risk_limits_with_cooldown, hrep, expected_shortfall, npQuantile,
      List.insertionSort, List.orderedInsert, List.filter, max_def, min_def, abs,
      List.cons_ne_nil]
  · intro x hx
    rw [List.eq_of_mem_replicate hx]
    norm_num

lemma find?_eq_first_violating (adv : String → ℚ) (ps : List (String × RiskPosition))
    (hpr : ∀ p ∈ ps, (1:ℚ)/1000000 ≤ p.2.price) (hadv : ∀ t, (1:ℚ) ≤ adv t) :
    (ps.find? (fun p => decide
        ((5 / 100 : ℚ) < |p.2.value| / (max 1 (adv p.1) * max (1 / 1000000) p.2.price)))).map
      Prod.fst = first_violating_asset adv ps := by
  induction ps with
  | nil => rfl
  | cons p rest ih =>
      have h1 : max 1 (adv p.1) = adv p.1 := max_eq_right (hadv p.1)
      have h2 : max ((1:ℚ) / 1000000) p.2.price = p.2.price :=
        max_eq_right (hpr p (List.mem_cons_self _ _))
      rw [first_violating_asset]
      by_cases hc : (5 / 100 : ℚ) < |p.2.value| / (adv p.1 * p.2.price)
      · rw [List.find?_cons_of_pos _ (by rw [h1, h2]; exact decide_eq_true hc)]
        rw [if_pos hc]
        rfl
      · rw [List.find?_cons_of_neg _ (by rw [h1, h2]; simpa using hc)]
        rw [if_neg hc]
        exact ih (fun q hq => hpr q (List.mem_cons_of_mem _ hq))

/-- C4 (amended): full characterisation of the ordered check, for a
portfolio whose total value exceeds the `1e-8` guard, whose position prices
are at least the `1e-6` guard, and whose ADV accessor returns at least `1`
(so the source's `max` guards are inert).  The verdict is KILL_SWITCH
exactly when the trailing window (the last 100 P&L observations) holds at
least 10 observations and the *magnitude of its cumulative P&L* — the
amendment: `abs(recent.sum())`, a gain or a loss, not only a loss — exceeds
3 times its ES95 magnitude; otherwise REJECTED on gross exposure exactly
when total absolute position value over total value exceeds 2; otherwise
REJECTED naming exactly the first asset in dict order whose participation
`|value| / (ADV × price)` exceeds 0.05; otherwise PASSED. -/
theorem check_risk_limits_characterisation (pf : RiskPortfolio) (pnl : List ℚ)
    (adv : String → ℚ)
    (htv : (1:ℚ)/100000000 < pf.total_value)
    (hpr : ∀ p ∈ pf.positions, (1:ℚ)/1000000 ≤ p.2.price)
    (hadv : ∀ t, (1:ℚ) ≤ adv t) :
    (check_risk_limits_with_cooldown pf pnl (some adv) = .kill_switch ↔
      (10 ≤ (pnl.drop (pnl.length - 100)).length ∧
        3 * |expected_shortfall (pnl.drop (pnl.length - 100)) (95/100)|
          < |(pnl.drop (pnl.length - 100)).sum|)) ∧
    (check_risk_limits_with_cooldown pf pnl (some adv) = .rejected_gross ↔
      (¬(10 ≤ (pnl.drop (pnl.length - 100)).length ∧
          3 * |expected_shortfall (pnl.drop (pnl.length - 100)) (95/100)|
            < |(pnl.drop (pnl.length - 100)).sum|) ∧
        2 < (pf.positions.map (fun p => |p.2.value|)).sum / pf.total_value)) ∧
    (∀ t, check_risk_limits_with_cooldown pf pnl (some adv) = .rejected_participation t ↔
      (¬(10 ≤ (pnl.drop (pnl.length - 100)).length ∧
          3 * |expected_shortfall (pnl.drop (pnl.length - 100)) (95/100)|
            < |(pnl.drop (pnl.length - 100)).sum|) ∧
        ¬(2 < (pf.positions.map (fun p => |p.2.value|)).sum / pf.total_value) ∧
        first_violating_asset adv pf.positions = some t)) ∧
    (check_risk_limits_with_cooldown pf pnl (some adv) = .passed ↔
      (¬(10 ≤ (pnl.drop (pnl.length - 100)).length ∧
          3 * |expected_shortfall (pnl.drop (pnl.length - 100)) (95/100)|
            < |(pnl.drop (pnl.length - 100)).sum|) ∧
        ¬(2 < (pf.positions.map (fun p => |p.2.value|)).sum / pf.total_value) ∧
        first_violating_asset adv pf.positions = none)) := by
  have hmax : max pf.total_value (1 / 100000000) = pf.total_value :=
    max_eq_left (le_of_lt htv)
  simp only [check_risk_limits_with_cooldown, hmax]
  rw [← find?_eq_first_violating adv pf.positions hpr hadv]
  by_cases hkill : 10 ≤ (pnl.drop (pnl.length - 100)).length ∧
      3 * |expected_shortfall (pnl.drop (pnl.length - 100)) (95/100)|
        < |(pnl.drop (pnl.length - 100)).sum|
  · rw [if_pos hkill]
    refine ⟨iff_of_true rfl hkill, iff_of_false (fun h => RiskVerdict.noConfusion h)
        (fun hc => hc.1 hkill),
      fun t => iff_of_false (fun h => RiskVerdict.noConfusion h) (fun hc => hc.1 hkill),
      iff_of_false (fun h => RiskVerdict.noConfusion h) (fun hc => hc.1 hkill)⟩
  · rw [if_neg hkill]
    by_cases hgross : 2 < (pf.positions.map (fun p => |p.2.value|)).sum / pf.total_value
    · rw [if_pos hgross]
      refine ⟨iff_of_false (fun h => RiskVerdict.noConfusion h) hkill,
        iff_of_true rfl ⟨hkill, hgross⟩,
        fun t => iff_of_false (fun h => RiskVerdict.noConfusion h) (fun hc => hc.2.1 hgross),
        iff_of_false (fun h => RiskVerdict.noConfusion h) (fun hc => hc.2.1 hgross)⟩
    · rw [if_neg hgross]
      cases hfind : pf.positions.find? (fun p => decide
          ((5 / 100 : ℚ) < |p.2.value| / (max 1 (adv p.1) * max (1 / 1000000) p.2.price))) with
      | none =>
          simp only [hfind]
          refine ⟨iff_of_false (fun h => RiskVerdict.noConfusion h) hkill,
            iff_of_false (fun h => RiskVerdict.noConfusion h) (fun hc => hgross hc.2),
            fun t => iff_of_false (fun h => RiskVerdict.noConfusion h)
              (fun hc => Option.noConfusion hc.2.2),
            iff_of_true (by trivial) ⟨hkill, hgross, by trivial⟩⟩
      | some p =>
          simp only [hfind]
          refine ⟨iff_of_false (fun h => RiskVerdict.noConfusion h) hkill,
            iff_of_false (fun h => RiskVerdict.noConfusion h) (fun hc => hgross hc.2),
            fun t => ?_, iff_of_false (fun h => RiskVerdict.noConfusion h)
              (fun hc => Option.noConfusion hc.2.2)⟩
          constructor
          · intro h
            injection h with h
            exact ⟨hkill, hgross, by rw [Option.map_some', h]⟩
          · rintro ⟨-, -, h⟩
            rw [Option.map_some'] at h
            injection h with h
            rw [h]

/-- C4 witness: the characterisation instantiated at an empty P&L series
and a single AAPL position of value 900 at price 50 in a 1000-value
portfolio with ADV `10^6`. -/
theorem check_risk_limits_characterisation_witness :
    ((1:ℚ)/100000000 < (1000 : ℚ) ∧
      (∀ p ∈ [("AAPL", (⟨50, 900⟩ : RiskPosition))], (1:ℚ)/1000000 ≤ p.2.price) ∧
      (∀ t : String, (1:ℚ) ≤ (fun _ => (1000000:ℚ)) t)) ∧
    ((check_risk_limits_with_cooldown ⟨[("AAPL", ⟨50, 900⟩)], 1000⟩ [] (some (fun _ => 1000000))
        = .kill_switch ↔
      (10 ≤ (([] : List ℚ).drop (([] : List ℚ).length - 100)).length ∧
        3 * |expected_shortfall (([] : List ℚ).drop (([] : List ℚ).length - 100)) (95/100)|
          < |(([] : List ℚ).drop (([] : List ℚ).length - 100)).sum|)) ∧
    (check_risk_limits_with_cooldown ⟨[("AAPL", ⟨50, 900⟩)], 1000⟩ [] (some (fun _ => 1000000))
        = .rejected_gross ↔
      (¬(10 ≤ (([] : List ℚ).drop (([] : List ℚ).length - 100)).length ∧
          3 * |expected_shortfall (([] : List ℚ).drop (([] : List ℚ).length - 100)) (95/100)|
            < |(([] : List ℚ).drop (([] : List ℚ).length - 100)).sum|) ∧
        2 < (([("AAPL", (⟨50, 900⟩ : RiskPosition))].map (fun p => |p.2.value|)).sum / (1000 : ℚ)))) ∧
    (∀ t, check_risk_limits_with_cooldown ⟨[("AAPL", ⟨50, 900⟩)], 1000⟩ [] (some (fun _ => 1000000))
        = .rejected_participation t ↔
      (¬(10 ≤ (([] : List ℚ).drop (([] : List ℚ).length - 100)).length ∧
          3 * |expected_shortfall (([] : List ℚ).drop (([] : List ℚ).length - 100)) (95/100)|
            < |(([] : List ℚ).drop (([] : List ℚ).length - 100)).sum|) ∧
        ¬(2 < (([("AAPL", (⟨50, 900⟩ : RiskPosition))].map (fun p => |p.2.value|)).sum / (1000 : ℚ))) ∧
        first_violating_asset (fun _ => 1000000) [("AAPL", ⟨50, 900⟩)] = some t)) ∧
    (check_risk_limits_with_cooldown ⟨[("AAPL", ⟨50, 900⟩)], 1000⟩ [] (some (fun _ => 1000000))
        = .passed ↔
      (¬(10 ≤ (([] : List ℚ).drop (([] : List ℚ).length - 100)).length ∧
          3 * |expected_shortfall (([] : List ℚ).drop (([] : List ℚ).length - 100)) (95/100)|
            < |(([] : List ℚ).drop (([] : List ℚ).length - 100)).sum|) ∧
        ¬(2 < (([("AAPL", (⟨50, 900⟩ : RiskPosition))].map (fun p => |p.2.value|)).sum / (1000 : ℚ))) ∧
        first_violating_asset (fun _ => 1000000) [("AAPL", ⟨50, 900⟩)] = none))) :=
  ⟨⟨by norm_num, by rintro p hp; rcases List.mem_singleton.mp hp with rfl; norm_num,
      fun t => by norm_num⟩,
    check_risk_limits_characterisation ⟨[("AAPL", ⟨50, 900⟩)], 1000⟩ [] (fun _ => 1000000)
      (by norm_num) (by rintro p hp; rcases List.mem_singleton.mp hp with rfl; norm_num)
      (fun t => by norm_num)⟩

end Trading
